import Mathlib

/-!
Verification of `src/tools/reg_to_svd.py` (Broadcom register header to
CMSIS-SVD converter).  The header-to-device-tree reconstruction pipeline
(`parse_header_lines`, `group_registers_by_peripheral`, `build_device_tree`,
`parse_header_to_device_tree`) is shallowly embedded here.

Conventions of the embedding:
* Python strings are `List Char`; Python dicts are insertion-ordered
  association lists, where updating an existing key keeps its position and a
  new key is appended at the end (exactly CPython's dict semantics).
* The three regular expressions `DEFINE_RE`, `FIELD_COMMENT_RE` and
  `REGISTER_COMMENT_RE` are embedded as abstract syntax trees interpreted by
  a backtracking matcher that implements Python `re` semantics for the
  constructs they use: leftmost match, greedy repetition tries the longest
  count first, lazy repetition the shortest, alternation is left-biased.
* Python truthiness (`if not periph_name`, `desc or reg_name`, `if comment`)
  is modelled explicitly: an empty string is falsy.
* `int(value_str, 0)` raises `ValueError` on a nonzero decimal literal
  written with a leading zero (all-zero literals are simply 0); fallible
  steps therefore return `Option`, with `none` standing for an uncaught
  Python exception.
-/

namespace RegToSvd

/-! ### Characters and Python string helpers -/

/-- Python `str.strip` / regex `\s` whitespace (ASCII part). -/
def pyIsSpace (c : Char) : Bool :=
  c = ' ' || c = '\t' || c = '\n' || c = '\r' || c = '\x0b' || c = '\x0c'

/-- The regex class `[a-zA-Z0-9_]`. -/
def isWordChar (c : Char) : Bool :=
  ('a' ≤ c && c ≤ 'z') || ('A' ≤ c && c ≤ 'Z') || ('0' ≤ c && c ≤ '9') || c = '_'

/-- The regex class `[0-9]`. -/
def isDigitChar (c : Char) : Bool := '0' ≤ c && c ≤ '9'

/-- The regex class `[0-9a-fA-F]`. -/
def isHexChar (c : Char) : Bool :=
  isDigitChar c || ('a' ≤ c && c ≤ 'f') || ('A' ≤ c && c ≤ 'F')

/-- Python `str.strip()` (both ends). -/
def pyStrip (s : List Char) : List Char :=
  ((s.dropWhile pyIsSpace).reverse.dropWhile pyIsSpace).reverse

/-- Python `needle in hay` substring test. -/
def containsSub (nd : List Char) : List Char → Bool
  | [] => nd.isPrefixOf []
  | c :: cs => nd.isPrefixOf (c :: cs) || containsSub nd cs

/-- Python `s.endswith(suf)`. -/
def endsWith (s suf : List Char) : Bool := suf.isSuffixOf s

/-- Python `s.replace(' ', '_')`. -/
def replSpace (s : List Char) : List Char :=
  s.map (fun ch => if ch = ' ' then '_' else ch)

/-- The literal word searched for and removed from register comments. -/
def registerW : List Char := ("Register").toList

/-- Python `s.replace("Register", "")`: removes every occurrence,
scanning left to right. -/
def stripRegister (s : List Char) : List Char :=
  match s with
  | [] => []
  | c :: cs =>
    if registerW.isPrefixOf (c :: cs) then stripRegister ((c :: cs).drop registerW.length)
    else c :: stripRegister cs
termination_by s.length
decreasing_by
  · have h8 : registerW.length = 8 := rfl
    simp only [List.length_drop, List.length_cons, h8]
    omega
  · simp only [List.length_cons]
    omega

/-- Python `name.rsplit('_', 1)` when `'_' in name`: split at the last
underscore, returning (part before it, part after it); `none` when the name
has no underscore (where the real code would raise `IndexError`). -/
def lastSplit : List Char → Option (List Char × List Char)
  | [] => none
  | c :: cs =>
    match lastSplit cs with
    | some (p, suf) => some (c :: p, suf)
    | none => if c = '_' then some ([], cs) else none

/-- Value of a hexadecimal digit character. -/
def hexDigitVal (c : Char) : Nat :=
  if c.toNat ≥ 97 then c.toNat - 87
  else if c.toNat ≥ 65 then c.toNat - 55
  else c.toNat - 48

/-- Numeric value of a hex-digit string. -/
def hexVal (s : List Char) : Nat := s.foldl (fun a c => a * 16 + hexDigitVal c) 0

/-- Numeric value of a decimal-digit string. -/
def decVal (s : List Char) : Nat := s.foldl (fun a c => a * 10 + (c.toNat - 48)) 0

/-- The `0x` prefix of hexadecimal literals. -/
def hexKw : List Char := ("0x").toList

/-- Python `int(s, 0)` on strings matched by the value group of `DEFINE_RE`
(`0x` plus hex digits, or decimal digits): hex literals convert; a decimal
literal converts when it has no leading zero, and a literal consisting only
of zeros (`0`, `00`, ...) converts to 0; a nonzero value written with a
leading zero (such as `010`) makes Python raise `ValueError` (modelled as
`none`). -/
def pyIntBase0 (s : List Char) : Option Nat :=
  if hexKw.isPrefixOf s then some (hexVal (s.drop 2))
  else
    match s with
    | [] => none
    | c :: rest =>
      if !(c :: rest).all isDigitChar then none
      else if c = '0' then
        if (c :: rest).all (fun ch => ch = '0') then some 0 else none
      else some (decVal (c :: rest))

/-! ### A tiny backtracking regex engine

Exactly the constructs used by the three patterns of the source file are
represented.  Greedy repetitions try the longest repetition count first and
backtrack downward; lazy repetitions try the shortest first; alternation
tries the left branch first; an optional group tries to match first.  This
is the semantics of Python's `re` backtracking engine for these patterns. -/

/-- Character classes appearing in the three patterns. -/
inductive CC where
  | ws
  | word
  | wordSp
  | digit
  | hex
  | notColon
  | dot
deriving DecidableEq, Repr

/-- Interpretation of a character class. -/
def CC.test : CC → Char → Bool
  | .ws, c => pyIsSpace c
  | .word, c => isWordChar c
  | .wordSp, c => isWordChar c || c = ' '
  | .digit, c => isDigitChar c
  | .hex, c => isHexChar c
  | .notColon, c => c ≠ ':'
  | .dot, c => c ≠ '\n'

/-- Regex abstract syntax: literals, one char of a class, greedy star/plus,
lazy star/plus, capture group, concatenation, alternation, greedy option. -/
inductive RE where
  | lit (s : List Char)
  | cls (cc : CC)
  | starG (cc : CC)
  | plusG (cc : CC)
  | starL (cc : CC)
  | plusL (cc : CC)
  | grp (i : Nat) (r : RE)
  | cat (a b : RE)
  | alt (a b : RE)
  | opt (r : RE)
deriving Repr

/-- Captured groups: group index paired with captured text. -/
abbrev Caps := List (Nat × List Char)

/-- Length of the maximal run of characters of class `cc` at the front. -/
def maxRun (cc : CC) : List Char → Nat
  | [] => 0
  | c :: cs => if cc.test c then maxRun cc cs + 1 else 0

/-- First successful result of `f` over the candidate list. -/
def firstSome (f : Nat → Option Caps) : List Nat → Option Caps
  | [] => none
  | n :: ns =>
    match f n with
    | some r => some r
    | none => firstSome f ns

/-- The list `[n, n-1, ..., 0]`. -/
def countdown : Nat → List Nat
  | 0 => [0]
  | n + 1 => (n + 1) :: countdown n

/-- Backtracking matcher in continuation-passing style.  `k` receives the
remaining input and the captures accumulated so far; the first success in
the backtracking order wins. -/
def matchR : RE → List Char → Caps → (List Char → Caps → Option Caps) → Option Caps
  | RE.lit s, inp, caps, k =>
    if s.isPrefixOf inp then k (inp.drop s.length) caps else none
  | RE.cls cc, inp, caps, k =>
    match inp with
    | [] => none
    | c :: cs => if cc.test c then k cs caps else none
  | RE.starG cc, inp, caps, k =>
    firstSome (fun j => k (inp.drop j) caps) (countdown (maxRun cc inp))
  | RE.plusG cc, inp, caps, k =>
    firstSome (fun j => k (inp.drop j) caps) (List.dropLast (countdown (maxRun cc inp)))
  | RE.starL cc, inp, caps, k =>
    firstSome (fun j => k (inp.drop j) caps) (List.reverse (countdown (maxRun cc inp)))
  | RE.plusL cc, inp, caps, k =>
    firstSome (fun j => k (inp.drop j) caps)
      (List.reverse (List.dropLast (countdown (maxRun cc inp))))
  | RE.grp i r, inp, caps, k =>
    matchR r inp caps (fun rest caps2 => k rest (caps2 ++ [(i, inp.take (inp.length - rest.length))]))
  | RE.cat a b, inp, caps, k =>
    matchR a inp caps (fun rest caps2 => matchR b rest caps2 k)
  | RE.alt a b, inp, caps, k =>
    match matchR a inp caps k with
    | some r => some r
    | none => matchR b inp caps k
  | RE.opt r, inp, caps, k =>
    match matchR r inp caps k with
    | some r => some r
    | none => k inp caps

/-- Python `pattern.match(s)`: anchored at the start of the string. -/
def reMatch (r : RE) (inp : List Char) : Option Caps :=
  matchR r inp [] (fun _ caps => some caps)

/-- Python `pattern.search(s)`: first (leftmost) position where the pattern
matches. -/
def reSearch (r : RE) : List Char → Option Caps
  | [] => reMatch r []
  | c :: rest =>
    match reMatch r (c :: rest) with
    | some caps => some caps
    | none => reSearch r rest

/-- Content of a captured group, `none` when the group did not participate
in the match (Python's `m.group(i) is None`). -/
def capLookup (caps : Caps) (i : Nat) : Option (List Char) :=
  (caps.find? (fun e => e.1 = i)).map (fun e => e.2)

/-- Sequence a list of regexes (right-nested concatenation). -/
def seqRE (rs : List RE) : RE := rs.foldr RE.cat (RE.lit [])

/-- The keyword starting a define line. -/
def defineKw : List Char := ("#define").toList

/-- Comment opener. -/
def cmtOpen : List Char := ("/*").toList

/-- Comment closer. -/
def cmtClose : List Char := ("*/").toList

/-- Double colon separator. -/
def dColon : List Char := ("::").toList

/-- `DEFINE_RE`, the pattern
`^#define\s+([a-zA-Z0-9_]+)\s+((?:0x[0-9a-fA-F]+)|[0-9]+)\s*(?:/\*\s*(.*?)\s*\*/)?`. -/
def defineRE : RE := seqRE
  [RE.lit defineKw, RE.plusG CC.ws, RE.grp 1 (RE.plusG CC.word), RE.plusG CC.ws,
   RE.grp 2 (RE.alt (RE.cat (RE.lit hexKw) (RE.plusG CC.hex)) (RE.plusG CC.digit)),
   RE.starG CC.ws,
   RE.opt (seqRE [RE.lit cmtOpen, RE.starG CC.ws, RE.grp 3 (RE.starL CC.dot),
                  RE.starG CC.ws, RE.lit cmtClose])]

/-- `FIELD_COMMENT_RE`, the pattern
`/\*\s*([a-zA-Z0-9_]+)\s*::\s*([a-zA-Z0-9_ ]+)\s*::\s*(.*?)\s*\[(\d+):(\d+)\]\s*\*/`. -/
def fieldCommentRE : RE := seqRE
  [RE.lit cmtOpen, RE.starG CC.ws, RE.grp 1 (RE.plusG CC.word), RE.starG CC.ws,
   RE.lit dColon, RE.starG CC.ws, RE.grp 2 (RE.plusG CC.wordSp), RE.starG CC.ws,
   RE.lit dColon, RE.starG CC.ws, RE.grp 3 (RE.starL CC.dot), RE.starG CC.ws,
   RE.lit [Char.ofNat 91], RE.grp 4 (RE.plusG CC.digit), RE.lit [':'],
   RE.grp 5 (RE.plusG CC.digit), RE.lit [Char.ofNat 93], RE.starG CC.ws, RE.lit cmtClose]

/-- `REGISTER_COMMENT_RE`, the pattern
`/\*\s*([a-zA-Z0-9_]+)\s*::\s*([^:]+?)\s*\*/`. -/
def registerCommentRE : RE := seqRE
  [RE.lit cmtOpen, RE.starG CC.ws, RE.grp 1 (RE.plusG CC.word), RE.starG CC.ws,
   RE.lit dColon, RE.starG CC.ws, RE.grp 2 (RE.plusL CC.notColon), RE.starG CC.ws,
   RE.lit cmtClose]

/-- `DEFINE_RE.match(line)` with the three groups extracted:
macro name, value string, optional comment. -/
def defineParse (line : List Char) : Option (List Char × List Char × Option (List Char)) :=
  (reMatch defineRE line).map
    (fun caps => ((capLookup caps 1).getD [], (capLookup caps 2).getD [], capLookup caps 3))

/-- `FIELD_COMMENT_RE.search(line)` with groups 1 (peripheral), 2 (register
name part) and 3 (description) extracted; the bit-range groups 4 and 5 are
matched but unused by the code. -/
def fieldCommentParse (line : List Char) : Option (List Char × List Char × List Char) :=
  (reSearch fieldCommentRE line).map
    (fun caps => ((capLookup caps 1).getD [], (capLookup caps 2).getD [],
                  (capLookup caps 3).getD []))

/-- `REGISTER_COMMENT_RE.search(line)` with both groups extracted. -/
def registerCommentParse (line : List Char) : Option (List Char × List Char) :=
  (reSearch registerCommentRE line).map
    (fun caps => ((capLookup caps 1).getD [], (capLookup caps 2).getD []))

/-! ### Association lists with CPython dict semantics -/

/-- First value bound to `k` (dict lookup / `get`). -/
def alLookup (k : List Char) : List (List Char × α) → Option α
  | [] => none
  | (k', v) :: rest => if k' = k then some v else alLookup k rest

/-- Dict assignment `d[k] = v`: an existing key keeps its position, a new
key is appended at the end. -/
def alInsert (k : List Char) (v : α) : List (List Char × α) → List (List Char × α)
  | [] => [(k, v)]
  | (k', v') :: rest => if k' = k then (k, v) :: rest else (k', v') :: alInsert k v rest

/-! ### The intermediate parse state (`parse_header_lines`) -/

/-- The per-prefix dict stored in `fields_info` (a `defaultdict(dict)` whose
inner dicts hold at most the keys `bitOffset` and `bitWidth`). -/
structure FProps where
  bitOffset : Option Nat
  bitWidth : Option Nat
deriving DecidableEq, Repr

/-- `RegAddrDesc`: address and description of a register definition. -/
structure RegAddrDesc where
  addr : Nat
  desc : List Char
deriving DecidableEq, Repr

/-- The `last_field_info` pending context: key base and description taken
from a field comment, awaiting a matching field-property define. -/
structure PendingField where
  key_base : List Char
  desc : List Char
deriving DecidableEq, Repr

/-- The mutable state of `parse_header_lines`; its first five components are
returned as the `ParsedHeader`. -/
structure PState where
  registers_info : List (List Char × RegAddrDesc)
  fields_info : List (List Char × FProps)
  field_descriptions : List (List Char × List Char)
  reg_fqn_to_periph : List (List Char × List Char)
  reg_fqn_to_regname : List (List Char × List Char)
  last_field_info : Option PendingField
deriving DecidableEq, Repr

/-- Update of `fields_info[px]` through the `defaultdict`: a missing key is
created (appended) holding the empty inner dict, then mutated. -/
def updFProps (px : List Char) (f : FProps → FProps) (l : List (List Char × FProps)) :
    List (List Char × FProps) :=
  match alLookup px l with
  | some props => alInsert px (f props) l
  | none => l ++ [(px, f ⟨none, none⟩)]

/-- The suffix `_BITS`. -/
def bitsSuf : List Char := ("_BITS").toList

/-- The suffix `_SHIFT`. -/
def shiftSuf : List Char := ("_SHIFT").toList

/-- The suffix `_ALIGN`. -/
def alignSuf : List Char := ("_ALIGN").toList

/-- The suffix `_MASK`. -/
def maskSuf : List Char := ("_MASK").toList

/-- The `rsplit` results compared against: `SHIFT`. -/
def shiftW : List Char := ("SHIFT").toList

/-- The `rsplit` results compared against: `BITS`. -/
def bitsW : List Char := ("BITS").toList

/-- The classifier deciding whether a define is a field property:
names ending in `_BITS`, `_SHIFT` or `_ALIGN` always are; names ending in
`_MASK` are unless a comment exists that is non-empty (Python truthiness)
and contains the word `Register`. -/
def isFieldProp (n : List Char) (c : Option (List Char)) : Bool :=
  if endsWith n bitsSuf || endsWith n shiftSuf || endsWith n alignSuf then true
  else if endsWith n maskSuf then
    match c with
    | none => true
    | some cc => cc = [] || !containsSub registerW cc
  else false

/-- Description stored for a register define: the comment with every
occurrence of `Register` removed and stripped, or the macro name itself when
the comment is absent or empty (Python `comment ... if comment else name`). -/
def regDescOf (n : List Char) (c : Option (List Char)) : List Char :=
  match c with
  | none => n
  | some cc => if cc = [] then n else pyStrip (stripRegister cc)

/-- Register-definition recording decision for one (already stripped) line:
when the line is a define that is not a field property and has a
hex-prefixed value, the name and the stored `RegAddrDesc` value. -/
def registerRecordValue (line : List Char) : Option (List Char × RegAddrDesc) :=
  match defineParse line with
  | some (n, v, c) =>
    if !isFieldProp n c && hexKw.isPrefixOf v then
      some (n, ⟨hexVal (v.drop 2), regDescOf n c⟩)
    else none
  | none => none

/-- The context reset rule: a line that is neither a define, a comment nor
empty clears the pending field-description context. -/
def resetCtx (st : PState) (line : List Char) : PState :=
  if defineKw.isPrefixOf line || cmtOpen.isPrefixOf line || line = [] then st
  else { st with last_field_info := none }

/-- The `fields_info` update of a field-property define: `_SHIFT` sets the
prefix's `bitOffset`, `_BITS` sets its `bitWidth`, anything else (`_ALIGN`,
`_MASK`) leaves the table untouched. -/
def fieldsInfoUpd (fi : List (List Char × FProps)) (px prop : List Char) (value : Nat) :
    List (List Char × FProps) :=
  if prop = shiftW then updFProps px (fun p => { p with bitOffset := some value }) fi
  else if prop = bitsW then updFProps px (fun p => { p with bitWidth := some value }) fi
  else fi

/-- Field-property handling: split the macro name at its last underscore,
convert the value with `int(value_str, 0)` (`none` models the `ValueError`
raised on a nonzero decimal literal with a leading zero, and the
unreachable `IndexError` when the name has no underscore), record `bitOffset` for
`_SHIFT` and `bitWidth` for `_BITS`, and consume a pending field description
whose key base is a string prefix of the field prefix — storing it only if
the prefix has no description yet, and clearing the pending context either
way. -/
def fieldPropStep (st : PState) (n v : List Char) : Option PState :=
  match lastSplit n with
  | none => none
  | some (px, prop) =>
    match pyIntBase0 v with
    | none => none
    | some value =>
      match st.last_field_info with
      | some pf =>
        if pf.key_base.isPrefixOf px then
          some { st with
            fields_info := fieldsInfoUpd st.fields_info px prop value,
            field_descriptions :=
              (if alLookup px st.field_descriptions = none
               then st.field_descriptions ++ [(px, pf.desc)]
               else st.field_descriptions),
            last_field_info := none }
        else some { st with fields_info := fieldsInfoUpd st.fields_info px prop value }
      | none => some { st with fields_info := fieldsInfoUpd st.fields_info px prop value }

/-- Define handling for one stripped line. -/
def defineStep (st : PState) (line : List Char) : Option PState :=
  match defineParse line with
  | none => some st
  | some (n, v, c) =>
    if isFieldProp n c then fieldPropStep st n v
    else if hexKw.isPrefixOf v then
      some { st with registers_info := alInsert n ⟨hexVal (v.drop 2), regDescOf n c⟩ st.registers_info }
    else some st

/-- The first-occurrence-wins insertion into the two FQN tables. -/
def recordFqnAux (st : PState) (periph rn : List Char) : PState :=
  if alLookup (periph ++ '_' :: rn) st.reg_fqn_to_periph = none then
    { st with
      reg_fqn_to_periph := st.reg_fqn_to_periph ++ [(periph ++ '_' :: rn, periph)],
      reg_fqn_to_regname := st.reg_fqn_to_regname ++ [(periph ++ '_' :: rn, rn)] }
  else st

/-- The common FQN-recording block: when the peripheral name and the
register name part are truthy and the latter contains no `::`, record
`PERIPH_NAME` (stripped, spaces to underscores) in both FQN tables, first
occurrence winning. -/
def recordFqn (st : PState) (periph rc : List Char) : PState :=
  if periph ≠ [] && rc ≠ [] && !containsSub dColon rc then
    recordFqnAux st periph (replSpace (pyStrip rc))
  else st

/-- Comment handling for one stripped line: a field comment (tried first)
sets the pending field context to (`PERIPH_REG`, stripped description) and
records the FQN; otherwise a register comment records the FQN. -/
def commentStep (st : PState) (line : List Char) : PState :=
  match fieldCommentParse line with
  | some (p, rc, ds) =>
    recordFqn { st with last_field_info := some ⟨p ++ '_' :: replSpace rc, pyStrip ds⟩ } p rc
  | none =>
    match registerCommentParse line with
    | some (p, rc) => recordFqn st p rc
    | none => st

/-- One iteration of the single pass of `parse_header_lines`: strip the
line, apply the reset rule, handle a define, then handle comments. -/
def lineStep (st : PState) (raw : List Char) : Option PState :=
  match defineStep (resetCtx st (pyStrip raw)) (pyStrip raw) with
  | none => none
  | some st2 => some (commentStep st2 (pyStrip raw))

/-- The empty initial state. -/
def initState : PState := ⟨[], [], [], [], [], none⟩

/-- Run `lineStep` over a list of lines from a given state. -/
def parseFrom (st : PState) : List (List Char) → Option PState
  | [] => some st
  | l :: ls =>
    match lineStep st l with
    | none => none
    | some st2 => parseFrom st2 ls

/-- `parse_header_lines`: the whole single pass from the empty state.  The
resulting `PState` carries the five `ParsedHeader` tables (plus the dead
final pending context). -/
def parse_header_lines (lines : List (List Char)) : Option PState :=
  parseFrom initState lines

/-! ### `group_registers_by_peripheral` -/

/-- `RegisterInfo`: resolved register name, address, description and the
original macro name. -/
structure RegisterInfo where
  reg_name : List Char
  addr : Nat
  desc : List Char
  reg_define : List Char
deriving DecidableEq, Repr

/-- Python truthiness of an optional string. -/
def truthyO : Option (List Char) → Bool
  | none => false
  | some s => s ≠ []

/-- Stable insertion into a list sorted by descending length (equal lengths
keep their original relative order, as Python's stable `sorted` does). -/
def insLenDesc (x : List Char) : List (List Char) → List (List Char)
  | [] => [x]
  | y :: ys => if y.length ≤ x.length then x :: y :: ys else y :: insLenDesc x ys

/-- `sorted(keys, key=len, reverse=True)`: stable sort by descending
length. -/
def sortLenDesc (l : List (List Char)) : List (List Char) := l.foldr insLenDesc []

/-- Peripheral/register name resolution for one register define: direct FQN
lookup; if the peripheral name is falsy, the longest-prefix fallback over
the recorded FQNs, deriving the register name by stripping
`len(peripheral) + 1` characters from the macro name. -/
def resolvePeriph (fqnP fqnR : List (List Char × List Char)) (d : List Char) :
    Option (List Char) × Option (List Char) :=
  let p0 := alLookup d fqnP
  let r0 := alLookup d fqnR
  if truthyO p0 then (p0, r0)
  else
    match (sortLenDesc (fqnP.map Prod.fst)).find? (fun f => f.isPrefixOf d) with
    | some f =>
      let p := (alLookup f fqnP).getD []
      (some p, some (d.drop (p.length + 1)))
    | none => (p0, r0)

/-- Whether a register define resolves to a truthy peripheral name and a
truthy register name — the `if periph_name and reg_name` test deciding
whether the register is kept or dropped with a warning. -/
def attributable (fqnP fqnR : List (List Char × List Char)) (d : List Char) : Bool :=
  truthyO (resolvePeriph fqnP fqnR d).1 && truthyO (resolvePeriph fqnP fqnR d).2

/-- The warning printed to stderr for an unattributable register. -/
def warnMsg (d : List Char) : List Char :=
  ("Warning: Could not determine peripheral for register ").toList ++ d

/-- `defaultdict(list)` append: an existing key keeps its position and has
the value appended to its list; a new key is appended at the end. -/
def alAppend (k : List Char) (v : RegisterInfo) :
    List (List Char × List RegisterInfo) → List (List Char × List RegisterInfo)
  | [] => [(k, [v])]
  | (k', vs) :: rest =>
    if k' = k then (k', vs ++ [v]) :: rest else (k', vs) :: alAppend k v rest

/-- The `RegisterInfo` appended for an attributable register: resolved
register name, address, `desc or reg_name` (Python truthiness), and the
original macro name. -/
def mkRegInfo (fqnP fqnR : List (List Char × List Char)) (e : List Char × RegAddrDesc) :
    RegisterInfo :=
  ⟨(resolvePeriph fqnP fqnR e.1).2.getD [], e.2.addr,
   (if e.2.desc ≠ [] then e.2.desc else (resolvePeriph fqnP fqnR e.1).2.getD []), e.1⟩

/-- One iteration of the grouping loop, threading the peripheral groups and
the emitted warnings. -/
def groupStep (fqnP fqnR : List (List Char × List Char))
    (acc : List (List Char × List RegisterInfo) × List (List Char))
    (e : List Char × RegAddrDesc) :
    List (List Char × List RegisterInfo) × List (List Char) :=
  if attributable fqnP fqnR e.1 then
    (alAppend ((resolvePeriph fqnP fqnR e.1).1.getD []) (mkRegInfo fqnP fqnR e) acc.1, acc.2)
  else
    (acc.1, acc.2 ++ [warnMsg e.1])

/-- `group_registers_by_peripheral`, also returning the warnings the real
function prints to stderr. -/
def group_registers_by_peripheral (ri : List (List Char × RegAddrDesc))
    (fqnP fqnR : List (List Char × List Char)) :
    List (List Char × List RegisterInfo) × List (List Char) :=
  ri.foldl (groupStep fqnP fqnR) ([], [])

/-! ### `build_device_tree` -/

/-- A register field of the output tree. -/
structure Field where
  name : List Char
  description : List Char
  bit_offset : Nat
  bit_width : Nat
deriving DecidableEq, Repr

/-- A register of the output tree; `fields` in insertion order. -/
structure Register where
  name : List Char
  description : List Char
  address_offset : Nat
  size : Nat
  fields : List Field
deriving DecidableEq, Repr

/-- A peripheral of the output tree; `registers` is a dict keyed by register
name. -/
structure Peripheral where
  name : List Char
  base_address : Nat
  description : List Char
  registers : List (List Char × Register)
deriving DecidableEq, Repr

/-- The output device tree; `peripherals` is a dict keyed by peripheral
name. -/
structure Device where
  name : List Char
  description : List Char
  peripherals : List (List Char × Peripheral)
deriving DecidableEq, Repr

/-- `min(r.addr for r in regs)` (0 for an empty list, matching the dead
`else 0` branch of the source). -/
def minAddr : List RegisterInfo → Nat
  | [] => 0
  | r :: rest => rest.foldl (fun m x => Nat.min m x.addr) r.addr

/-- Stable insertion into a list sorted by ascending address. -/
def insAddr (x : RegisterInfo) : List RegisterInfo → List RegisterInfo
  | [] => [x]
  | y :: ys => if x.addr ≤ y.addr then x :: y :: ys else y :: insAddr x ys

/-- `sorted(regs, key=lambda r: r.addr)`: stable ascending sort. -/
def sortByAddr (l : List RegisterInfo) : List RegisterInfo := l.foldr insAddr []

/-- The union of all original register macro names over all peripherals
(the `all_reg_fqns` set; only membership is ever used). -/
def allFqns (groups : List (List Char × List RegisterInfo)) : List (List Char) :=
  groups.foldl (fun a e => a ++ e.2.map RegisterInfo.reg_define) []

/-- Whether a more specific register macro name exists: longer than this
register's macro name, extending it, and extended by the field prefix with
an underscore. -/
def isMoreSpecific (all : List (List Char)) (rd fpx : List Char) : Bool :=
  all.any (fun o =>
    decide (rd.length < o.length) && rd.isPrefixOf o && (o ++ ['_']).isPrefixOf fpx)

/-- The field built from one `fields_info` entry for the register with macro
name `rd`, or `none` when the entry does not attach to this register or is
incomplete. -/
def fieldOfEntry (rd : List Char) (all : List (List Char))
    (fd : List (List Char × List Char)) (e : List Char × FProps) : Option Field :=
  if (rd ++ ['_']).isPrefixOf e.1 && !isMoreSpecific all rd e.1 then
    match e.2.bitOffset, e.2.bitWidth with
    | some o, some w =>
      some ⟨e.1.drop (rd.length + 1), (alLookup e.1 fd).getD (e.1.drop (rd.length + 1)), o, w⟩
    | _, _ => none
  else none

/-- Append the content of an optional element, if any. -/
def appendOpt {β : Type} (acc : List β) (o : Option β) : List β :=
  match o with
  | some f => acc ++ [f]
  | none => acc

/-- The field-assignment loop of `build_device_tree` for one register:
iterate over `fields_info` in insertion order, appending the fields that
attach. -/
def fieldsForRegister (rd : List Char) (all : List (List Char))
    (fi : List (List Char × FProps)) (fd : List (List Char × List Char)) : List Field :=
  fi.foldl (fun acc e => appendOpt acc (fieldOfEntry rd all fd e)) []

/-- The `Register` object built for one grouped register. -/
def mkRegister (all : List (List Char)) (fi : List (List Char × FProps))
    (fd : List (List Char × List Char)) (base : Nat) (i : RegisterInfo) : Register :=
  ⟨i.reg_name, i.desc, i.addr - base, 32, fieldsForRegister i.reg_define all fi fd⟩

/-- The register dict of one peripheral: registers added in ascending
address order, keyed by register name (a later same-named register
overwrites the earlier one in place). -/
def regsFold (all : List (List Char)) (fi : List (List Char × FProps))
    (fd : List (List Char × List Char)) (base : Nat) (regs : List RegisterInfo) :
    List (List Char × Register) :=
  (sortByAddr regs).foldl (fun rs i => alInsert i.reg_name (mkRegister all fi fd base i) rs) []

/-- The description suffix of a generated peripheral. -/
def periphSuffix : List Char := (" Peripheral").toList

/-- The `Peripheral` object built for one peripheral group: base address is
the minimum register address, description is the name plus " Peripheral",
and the register dict is built by `regsFold`. -/
def mkPeriph (all : List (List Char)) (fi : List (List Char × FProps))
    (fd : List (List Char × List Char)) (e : List Char × List RegisterInfo) : Peripheral :=
  ⟨e.1, minAddr e.2, e.1 ++ periphSuffix, regsFold all fi fd (minAddr e.2) e.2⟩

/-- One iteration of the peripheral loop of `build_device_tree`: peripherals
with no registers are skipped; otherwise the fully-built peripheral is
added. -/
def buildStep (all : List (List Char)) (fi : List (List Char × FProps))
    (fd : List (List Char × List Char)) (acc : List (List Char × Peripheral))
    (e : List Char × List RegisterInfo) : List (List Char × Peripheral) :=
  if e.2 = [] then acc else alInsert e.1 (mkPeriph all fi fd e) acc

/-- `build_device_tree`. -/
def build_device_tree (dn dd : List Char) (groups : List (List Char × List RegisterInfo))
    (fi : List (List Char × FProps)) (fd : List (List Char × List Char)) : Device :=
  ⟨dn, dd, groups.foldl (buildStep (allFqns groups) fi fd) []⟩

/-- `parse_header_to_device_tree`: the full pipeline (parsing, grouping,
building); `none` models an uncaught exception during parsing. -/
def parse_header_to_device_tree (lines : List (List Char)) (dn dd : List Char) :
    Option Device :=
  match parse_header_lines lines with
  | none => none
  | some ph =>
    some (build_device_tree dn dd
      (group_registers_by_peripheral ph.registers_info ph.reg_fqn_to_periph ph.reg_fqn_to_regname).1
      ph.fields_info ph.field_descriptions)

/-- The warnings printed by the grouping phase of the pipeline. -/
def pipelineWarnings (lines : List (List Char)) : Option (List (List Char)) :=
  match parse_header_lines lines with
  | none => none
  | some ph =>
    some (group_registers_by_peripheral ph.registers_info ph.reg_fqn_to_periph
      ph.reg_fqn_to_regname).2

/-! ### Concrete inputs used by counterexamples and witnesses -/

/-- The default device name of the command line interface. -/
def devName0 : List Char := ("Device Name").toList

/-- The default device description of the command line interface. -/
def devDesc0 : List Char := ("Device Description").toList

/-- The five-line end-to-end example input of the specification. -/
def c1Lines : List (List Char) :=
  [("/* UART :: UART_CTRL :: Control register */").toList,
   ("#define UART_CTRL 0x1000").toList,
   ("/* UART :: UART_CTRL :: ENABLE :: Enable bit [0:0] */").toList,
   ("#define UART_CTRL_ENABLE_SHIFT 0").toList,
   ("#define UART_CTRL_ENABLE_BITS 1").toList]

/-- The macro name `UART_CTRL`. -/
def uartCtrlName : List Char := ("UART_CTRL").toList

/-- The fully-qualified name `UART_UART_CTRL` that the example's field
comment records. -/
def uartUartCtrlName : List Char := ("UART_UART_CTRL").toList

/-- The peripheral name `UART`. -/
def uartName : List Char := ("UART").toList

/-- The bounds asserted by the specification for one field: bit offset in
0–31, width at least 1, and offset plus width at most the register size of
32. -/
def fieldBounded (f : Field) : Bool :=
  decide (f.bit_offset ≤ 31) && decide (1 ≤ f.bit_width) &&
    decide (f.bit_offset + f.bit_width ≤ 32)

/-- Whether every field of every register of every peripheral of a device
satisfies `fieldBounded`. -/
def deviceFieldsBounded (d : Device) : Bool :=
  d.peripherals.all (fun p => p.2.registers.all (fun r => r.2.fields.all fieldBounded))

/-- The same bounds on a raw `fields_info` entry, vacuous when either
property is missing. -/
def fpropsBounded (p : FProps) : Bool :=
  match p.bitOffset, p.bitWidth with
  | some o, some w => decide (o ≤ 31) && decide (1 ≤ w) && decide (o + w ≤ 32)
  | _, _ => true

/-- A four-line header whose field macros place a field at bits [34:31],
used to show that no bounds are enforced. -/
def c3Lines : List (List Char) :=
  [("/* FOO :: BAR */").toList,
   ("#define FOO_BAR 0x0").toList,
   ("#define FOO_BAR_X_SHIFT 31").toList,
   ("#define FOO_BAR_X_BITS 4").toList]

/-- Register table with the single macro `FOO_BAR_BAZ`, for the fallback
grouping claim. -/
def riC2 : List (List Char × RegAddrDesc) :=
  [(("FOO_BAR_BAZ").toList, ⟨8192, ("revision").toList⟩)]

/-- FQN-to-peripheral table recording only `FOO_BAR` for peripheral
`FOO`. -/
def fqnPC2 : List (List Char × List Char) := [(("FOO_BAR").toList, ("FOO").toList)]

/-- FQN-to-register-name table recording only `FOO_BAR` as register
`BAR`. -/
def fqnRC2 : List (List Char × List Char) := [(("FOO_BAR").toList, ("BAR").toList)]

/-- The suffix `_EXT` of the specificity-resolution claim. -/
def extSuffix : List Char := ['_', 'E', 'X', 'T']

/-- A four-line header whose single field sits at bits [6:3], within
bounds; used as witness input. -/
def c3WitnessLines : List (List Char) :=
  [("/* FOO :: BAR */").toList,
   ("#define FOO_BAR 0x0").toList,
   ("#define FOO_BAR_X_SHIFT 3").toList,
   ("#define FOO_BAR_X_BITS 4").toList]

/-- Two concretely grouped registers of a peripheral `FOO`, for the
base-address witness. -/
def c4Regs : List RegisterInfo :=
  [⟨("BAR").toList, 256, ("b").toList, ("FOO_BAR").toList⟩,
   ⟨("BAZ").toList, 260, ("z").toList, ("FOO_BAZ").toList⟩]

/-- A one-peripheral grouping holding `c4Regs`. -/
def c4Groups : List (List Char × List RegisterInfo) := [(("FOO").toList, c4Regs)]

/-- One grouped register `BAR` of peripheral `FOO`, for the
complete-fields witness. -/
def c6Groups : List (List Char × List RegisterInfo) :=
  [(("FOO").toList, [⟨("BAR").toList, 0, ("rdesc").toList, ("FOO_BAR").toList⟩])]

/-- A field table with one complete entry (`FOO_BAR_X`) and one incomplete
entry (`FOO_BAR_Y`, width missing). -/
def c6Fi : List (List Char × FProps) :=
  [(("FOO_BAR_X").toList, ⟨some 3, some 4⟩), (("FOO_BAR_Y").toList, ⟨some 9, none⟩)]

/-! ## Lemmas about the dict operations -/

theorem alLookup_alInsert_self {α : Type} (k : List Char) (v : α) (l : List (List Char × α)) :
    alLookup k (alInsert k v l) = some v := by
  induction l with
  | nil => simp [alInsert, alLookup]
  | cons hd tl ih =>
    obtain ⟨k', v'⟩ := hd
    by_cases h : k' = k
    · simp [alInsert, alLookup, h]
    · simp [alInsert, alLookup, h, ih]

theorem alLookup_alInsert_ne {α : Type} (k k' : List Char) (v : α) (l : List (List Char × α))
    (h : k' ≠ k) : alLookup k (alInsert k' v l) = alLookup k l := by
  induction l with
  | nil => simp [alInsert, alLookup, h]
  | cons hd tl ih =>
    obtain ⟨k1, v1⟩ := hd
    by_cases h1 : k1 = k'
    · subst h1
      simp [alInsert, alLookup, h]
    · simp [alInsert, alLookup, h1, ih]

theorem alLookup_mem {α : Type} (k : List Char) (v : α) (l : List (List Char × α))
    (h : alLookup k l = some v) : (k, v) ∈ l := by
  induction l with
  | nil => simp [alLookup] at h
  | cons hd tl ih =>
    obtain ⟨k1, v1⟩ := hd
    by_cases h1 : k1 = k
    · subst h1
      simp [alLookup] at h
      simp [h]
    · simp [alLookup, h1] at h
      exact List.mem_cons_of_mem _ (ih h)

theorem mem_alInsert {α : Type} (x : List Char × α) (k : List Char) (v : α)
    (l : List (List Char × α)) (h : x ∈ alInsert k v l) : x = (k, v) ∨ x ∈ l := by
  induction l with
  | nil => simpa [alInsert] using h
  | cons hd tl ih =>
    obtain ⟨k1, v1⟩ := hd
    by_cases h1 : k1 = k
    · simp [alInsert, h1] at h
      rcases h with h | h
      · exact Or.inl h
      · exact Or.inr (List.mem_cons_of_mem _ h)
    · simp [alInsert, h1] at h
      rcases h with h | h
      · exact Or.inr (by simp [h])
      · rcases ih h with h2 | h2
        · exact Or.inl h2
        · exact Or.inr (List.mem_cons_of_mem _ h2)

/-! ## The field-assignment loop as a `filterMap` -/

theorem foldl_opt_append {α β : Type} (g : α → Option β) (l : List α) (acc : List β) :
    l.foldl (fun a e => appendOpt a (g e)) acc = acc ++ l.filterMap g := by
  induction l generalizing acc with
  | nil => simp
  | cons hd tl ih =>
    cases hg : g hd with
    | none =>
      simp only [List.foldl_cons, List.filterMap_cons, hg]
      rw [ih]
      simp [appendOpt]
    | some f =>
      simp only [List.foldl_cons, List.filterMap_cons, hg]
      rw [ih]
      simp [appendOpt]

theorem fieldsFor_eq_filterMap (rd : List Char) (all : List (List Char))
    (fi : List (List Char × FProps)) (fd : List (List Char × List Char)) :
    fieldsForRegister rd all fi fd = fi.filterMap (fieldOfEntry rd all fd) := by
  simpa [fieldsForRegister] using foldl_opt_append (fieldOfEntry rd all fd) fi []

theorem fieldOfEntry_some (rd : List Char) (all : List (List Char))
    (fd : List (List Char × List Char)) (e : List Char × FProps) (f : Field)
    (h : fieldOfEntry rd all fd e = some f) :
    (rd ++ ['_']).isPrefixOf e.1 = true ∧ isMoreSpecific all rd e.1 = false ∧
      e.2.bitOffset = some f.bit_offset ∧ e.2.bitWidth = some f.bit_width ∧
      f.name = e.1.drop (rd.length + 1) := by
  unfold fieldOfEntry at h
  split at h
  case isTrue hc =>
    rcases Bool.and_eq_true_iff.mp hc with ⟨hp, hm⟩
    cases ho : e.2.bitOffset with
    | none => rw [ho] at h; cases h
    | some o =>
      cases hw : e.2.bitWidth with
      | none => rw [ho, hw] at h; cases h
      | some w =>
        rw [ho, hw] at h
        injection h with h
        subst h
        exact ⟨hp, Bool.not_eq_true' .. |>.mp hm, rfl, rfl, rfl⟩
  case isFalse hc => cases h

/-! ## Membership in the built device tree -/

theorem regsFold_mem_aux (all : List (List Char)) (fi : List (List Char × FProps))
    (fd : List (List Char × List Char)) (base : Nat) :
    ∀ (l : List RegisterInfo) (rs0 : List (List Char × Register)) (x : List Char × Register),
    x ∈ l.foldl (fun rs i => alInsert i.reg_name (mkRegister all fi fd base i) rs) rs0 →
    x ∈ rs0 ∨ ∃ i ∈ l, x = (i.reg_name, mkRegister all fi fd base i) := by
  intro l
  induction l with
  | nil => intro rs0 x h; exact Or.inl h
  | cons hd tl ih =>
    intro rs0 x h
    rcases ih _ x h with h2 | ⟨i, hi, hx⟩
    · rcases mem_alInsert _ _ _ _ h2 with h3 | h3
      · exact Or.inr ⟨hd, List.mem_cons_self .., h3⟩
      · exact Or.inl h3
    · exact Or.inr ⟨i, List.mem_cons_of_mem _ hi, hx⟩

theorem mem_insAddr (x a : RegisterInfo) (l : List RegisterInfo) :
    x ∈ insAddr a l ↔ x = a ∨ x ∈ l := by
  induction l with
  | nil => simp [insAddr]
  | cons hd tl ih =>
    by_cases h : a.addr ≤ hd.addr
    · simp [insAddr, h]
    · simp [insAddr, h, ih]
      tauto

theorem mem_sortByAddr (x : RegisterInfo) (l : List RegisterInfo) :
    x ∈ sortByAddr l ↔ x ∈ l := by
  induction l with
  | nil => simp [sortByAddr]
  | cons hd tl ih =>
    show x ∈ insAddr hd (sortByAddr tl) ↔ _
    rw [mem_insAddr]
    simp [ih]

theorem regsFold_mem (all : List (List Char)) (fi : List (List Char × FProps))
    (fd : List (List Char × List Char)) (base : Nat) (regs : List RegisterInfo)
    (x : List Char × Register) (h : x ∈ regsFold all fi fd base regs) :
    ∃ i ∈ regs, x = (i.reg_name, mkRegister all fi fd base i) := by
  rcases regsFold_mem_aux all fi fd base (sortByAddr regs) [] x h with h2 | ⟨i, hi, hx⟩
  · cases h2
  · exact ⟨i, (mem_sortByAddr i regs).mp hi, hx⟩

theorem build_mem (all : List (List Char)) (fi : List (List Char × FProps))
    (fd : List (List Char × List Char)) :
    ∀ (groups : List (List Char × List RegisterInfo)) (acc : List (List Char × Peripheral))
      (x : List Char × Peripheral),
    x ∈ groups.foldl (buildStep all fi fd) acc →
    x ∈ acc ∨ ∃ e ∈ groups, e.2 ≠ [] ∧ x = (e.1, mkPeriph all fi fd e) := by
  intro groups
  induction groups with
  | nil => intro acc x h; exact Or.inl h
  | cons hd tl ih =>
    intro acc x h
    rcases ih _ x h with h2 | ⟨e, he, hne, hx⟩
    · unfold buildStep at h2
      split at h2
      · exact Or.inl h2
      · rcases mem_alInsert _ _ _ _ h2 with h3 | h3
        · exact Or.inr ⟨hd, List.mem_cons_self .., by assumption, h3⟩
        · exact Or.inl h3
    · exact Or.inr ⟨e, List.mem_cons_of_mem _ he, hne, hx⟩

theorem device_mem (dn dd : List Char) (groups : List (List Char × List RegisterInfo))
    (fi : List (List Char × FProps)) (fd : List (List Char × List Char))
    (pn : List Char) (p : Peripheral)
    (h : (pn, p) ∈ (build_device_tree dn dd groups fi fd).peripherals) :
    ∃ e ∈ groups, e.2 ≠ [] ∧ pn = e.1 ∧ p = mkPeriph (allFqns groups) fi fd e := by
  rcases build_mem (allFqns groups) fi fd groups [] (pn, p) h with h2 | ⟨e, he, hne, hx⟩
  · cases h2
  · injection hx with h1 h2
    exact ⟨e, he, hne, h1, h2⟩

/-! ## Claim C1: the end-to-end example -/

/-- C1, counterexample.  The claim states that the five-line example input
produces exactly one peripheral named UART; in fact the conversion produces
a device with no peripherals at all (the example's register macro
`UART_CTRL` cannot be attributed to any peripheral). -/
theorem c1_counterexample :
    ¬ ∃ d p, parse_header_to_device_tree c1Lines devName0 devDesc0 = some d ∧
      (uartName, p) ∈ d.peripherals := by
  rintro ⟨d, p, hd, hp⟩
  have h : parse_header_to_device_tree c1Lines devName0 devDesc0 =
      some ⟨devName0, devDesc0, []⟩ := by decide
  rw [h] at hd
  injection hd with hd
  subst hd
  simp at hp

/-- C1, amended.  On the five-line example input the conversion produces a
device with no peripherals, and the register `UART_CTRL` is dropped with a
warning: line 1 matches neither comment pattern (the register-comment
pattern cannot reach across the second `::`), and line 3's field comment
records the fully-qualified name `UART_UART_CTRL`, which neither equals nor
prefixes the macro name `UART_CTRL`. -/
theorem c1_amended :
    parse_header_to_device_tree c1Lines devName0 devDesc0 = some ⟨devName0, devDesc0, []⟩ ∧
    pipelineWarnings c1Lines = some [warnMsg uartCtrlName] ∧
    (parse_header_lines c1Lines).map PState.reg_fqn_to_periph =
      some [(uartUartCtrlName, uartName)] :=
  ⟨by decide, by decide, by decide⟩

/-! ## Claim C2: fallback grouping -/

/-- C2, counterexample.  With the FQN `FOO_BAR` recorded for peripheral
`FOO` and register `BAR`, the fallback does not resolve the macro
`FOO_BAR_BAZ` to register name `BAZ`: no grouped register with that define
carries the name `BAZ`. -/
theorem c2_counterexample :
    ¬ ∃ e ∈ (group_registers_by_peripheral riC2 fqnPC2 fqnRC2).1,
      ∃ i ∈ e.2, i.reg_define = ("FOO_BAR_BAZ").toList ∧
        i.reg_name = ("BAZ").toList := by
  decide

/-- C2, amended.  The fallback resolves `FOO_BAR_BAZ` to peripheral `FOO`
with register name `BAR_BAZ`: the register name is the macro name with the
peripheral name plus one underscore stripped, not the remainder after the
matched FQN. -/
theorem c2_amended :
    (group_registers_by_peripheral riC2 fqnPC2 fqnRC2).1 =
      [(("FOO").toList,
        [⟨("BAR_BAZ").toList, 8192, ("revision").toList, ("FOO_BAR_BAZ").toList⟩])] := by
  decide

/-! ## Claim C3: field bit-range bounds -/

/-- C3, counterexample.  The claim asserts the bounds for every input
header, but the code enforces none: a header placing a field at
`_SHIFT 31`, `_BITS 4` yields a device tree containing a field with
`bit_offset + bit_width = 35 > 32`. -/
theorem c3_counterexample :
    (parse_header_to_device_tree c3Lines devName0 devDesc0).map deviceFieldsBounded =
      some false := by
  decide

/-- C3, amended.  Field bit offsets and widths are copied verbatim from the
`_SHIFT`/`_BITS` macro values with no bounds check; the claimed invariant
therefore holds only conditionally: whenever every recorded `fields_info`
entry satisfies the bounds, every field of the resulting device tree
satisfies them.  (The condition is sufficient, not necessary: an
out-of-bounds entry that attaches to no register leaves the tree vacuously
bounded.) -/
theorem c3_amended (lines : List (List Char)) (dn dd : List Char)
    (hb : (parse_header_lines lines).map
        (fun ph => ph.fields_info.all (fun e => fpropsBounded e.2)) = some true) :
    (parse_header_to_device_tree lines dn dd).map deviceFieldsBounded = some true := by
  cases hparse : parse_header_lines lines with
  | none => rw [hparse] at hb; cases hb
  | some ph =>
    rw [hparse] at hb
    simp only [Option.map_some'] at hb
    injection hb with hb
    rw [List.all_eq_true] at hb
    unfold parse_header_to_device_tree
    rw [hparse]
    simp only [Option.map_some', Option.some.injEq]
    simp only [deviceFieldsBounded, List.all_eq_true]
    intro pp hpp rr hrr ff hff
    obtain ⟨e, _, _, _, hp2⟩ := device_mem _ _ _ _ _ pp.1 pp.2 (by simpa using hpp)
    rw [hp2] at hrr
    unfold mkPeriph at hrr
    obtain ⟨i, _, hreq⟩ := regsFold_mem _ _ _ _ _ _ hrr
    have hfields : rr.2.fields = fieldsForRegister i.reg_define
        (allFqns (group_registers_by_peripheral ph.registers_info ph.reg_fqn_to_periph
          ph.reg_fqn_to_regname).1) ph.fields_info ph.field_descriptions := by
      rw [hreq]
      rfl
    rw [hfields, fieldsFor_eq_filterMap] at hff
    obtain ⟨en, hen, hsome⟩ := List.mem_filterMap.mp hff
    obtain ⟨_, _, ho, hw, _⟩ := fieldOfEntry_some _ _ _ _ _ hsome
    have hbent := hb en hen
    unfold fpropsBounded at hbent
    rw [ho, hw] at hbent
    simp only [Bool.and_eq_true, decide_eq_true_eq] at hbent
    simp only [fieldBounded, Bool.and_eq_true, decide_eq_true_eq]
    exact ⟨⟨hbent.1.1, hbent.1.2⟩, hbent.2⟩

/-- C3 witness: on a header whose single field sits at [6:3], the
hypothesis of the amended theorem holds and so every field of the output is
bounded. -/
theorem c3_amended_witness :
    (parse_header_to_device_tree c3WitnessLines devName0 devDesc0).map deviceFieldsBounded =
      some true :=
  c3_amended c3WitnessLines devName0 devDesc0 (by decide)

/-! ## Lemmas about minima and the register fold -/

theorem foldl_min_le_init (l : List RegisterInfo) :
    ∀ a : Nat, l.foldl (fun m x => Nat.min m x.addr) a ≤ a := by
  induction l with
  | nil => intro a; exact Nat.le_refl a
  | cons hd tl ih =>
    intro a
    exact Nat.le_trans (ih (Nat.min a hd.addr)) (Nat.min_le_left _ _)

theorem foldl_min_le_mem (l : List RegisterInfo) :
    ∀ (a : Nat) (x : RegisterInfo), x ∈ l →
      l.foldl (fun m x => Nat.min m x.addr) a ≤ x.addr := by
  induction l with
  | nil => intro a x hx; cases hx
  | cons hd tl ih =>
    intro a x hx
    rcases List.mem_cons.mp hx with h | h
    · subst h
      exact Nat.le_trans (foldl_min_le_init tl _) (Nat.min_le_right _ _)
    · exact ih _ x h

theorem foldl_min_attained (l : List RegisterInfo) :
    ∀ a : Nat, l.foldl (fun m x => Nat.min m x.addr) a = a ∨
      ∃ x ∈ l, l.foldl (fun m x => Nat.min m x.addr) a = x.addr := by
  induction l with
  | nil => intro a; exact Or.inl rfl
  | cons hd tl ih =>
    intro a
    simp only [List.foldl_cons]
    rcases Nat.le_total a hd.addr with hle | hle
    · have hm : Nat.min a hd.addr = a := Nat.min_eq_left hle
      rcases ih (Nat.min a hd.addr) with h | ⟨x, hx, h⟩
      · exact Or.inl (h.trans hm)
      · exact Or.inr ⟨x, List.mem_cons_of_mem _ hx, h⟩
    · have hm : Nat.min a hd.addr = hd.addr := Nat.min_eq_right hle
      rcases ih (Nat.min a hd.addr) with h | ⟨x, hx, h⟩
      · exact Or.inr ⟨hd, List.mem_cons_self .., h.trans hm⟩
      · exact Or.inr ⟨x, List.mem_cons_of_mem _ hx, h⟩

theorem minAddr_le (regs : List RegisterInfo) (i : RegisterInfo) (h : i ∈ regs) :
    minAddr regs ≤ i.addr := by
  cases regs with
  | nil => cases h
  | cons r rest =>
    rcases List.mem_cons.mp h with h1 | h1
    · subst h1
      exact foldl_min_le_init rest i.addr
    · exact foldl_min_le_mem rest r.addr i h1

theorem minAddr_attained (regs : List RegisterInfo) (h : regs ≠ []) :
    ∃ i ∈ regs, i.addr = minAddr regs := by
  cases regs with
  | nil => exact absurd rfl h
  | cons r rest =>
    rcases foldl_min_attained rest r.addr with h1 | ⟨x, hx, h1⟩
    · exact ⟨r, List.mem_cons_self .., h1.symm⟩
    · exact ⟨x, List.mem_cons_of_mem _ hx, h1.symm⟩

theorem regsFold_lookup_preserve (all : List (List Char)) (fi : List (List Char × FProps))
    (fd : List (List Char × List Char)) (base : Nat) :
    ∀ (l : List RegisterInfo) (rs0 : List (List Char × Register)) (pn : List Char),
      pn ∉ l.map RegisterInfo.reg_name →
      alLookup pn (l.foldl (fun rs i => alInsert i.reg_name (mkRegister all fi fd base i) rs) rs0)
        = alLookup pn rs0 := by
  intro l
  induction l with
  | nil => intro rs0 pn _; rfl
  | cons hd tl ih =>
    intro rs0 pn hpn
    simp only [List.map_cons, List.mem_cons, not_or] at hpn
    rw [List.foldl_cons, ih _ pn (by simpa using hpn.2),
      alLookup_alInsert_ne pn hd.reg_name _ rs0 (Ne.symm hpn.1)]

theorem regsFold_lookup (all : List (List Char)) (fi : List (List Char × FProps))
    (fd : List (List Char × List Char)) (base : Nat) :
    ∀ (l : List RegisterInfo) (rs0 : List (List Char × Register)) (i : RegisterInfo),
      i ∈ l → (l.map RegisterInfo.reg_name).Nodup →
      alLookup i.reg_name
          (l.foldl (fun rs i => alInsert i.reg_name (mkRegister all fi fd base i) rs) rs0)
        = some (mkRegister all fi fd base i) := by
  intro l
  induction l with
  | nil => intro rs0 i hi; cases hi
  | cons hd tl ih =>
    intro rs0 i hi hnd
    simp only [List.map_cons, List.nodup_cons] at hnd
    rcases List.mem_cons.mp hi with h1 | h1
    · subst h1
      rw [List.foldl_cons, regsFold_lookup_preserve all fi fd base tl _ _ hnd.1,
        alLookup_alInsert_self]
    · exact ih _ i h1 hnd.2

theorem insAddr_perm (a : RegisterInfo) (l : List RegisterInfo) :
    (insAddr a l).Perm (a :: l) := by
  induction l with
  | nil => exact List.Perm.refl _
  | cons hd tl ih =>
    by_cases h : a.addr ≤ hd.addr
    · simp only [insAddr, h, if_true]
      exact List.Perm.refl _
    · simp only [insAddr, h, if_false]
      exact (ih.cons hd).trans (List.Perm.swap a hd tl)

theorem sortByAddr_perm (l : List RegisterInfo) : (sortByAddr l).Perm l := by
  induction l with
  | nil => exact List.Perm.refl _
  | cons hd tl ih =>
    exact (insAddr_perm hd (sortByAddr tl)).trans (ih.cons hd)

theorem build_lookup_preserve (all : List (List Char)) (fi : List (List Char × FProps))
    (fd : List (List Char × List Char)) :
    ∀ (groups : List (List Char × List RegisterInfo)) (acc : List (List Char × Peripheral))
      (pn : List Char), pn ∉ groups.map Prod.fst →
      alLookup pn (groups.foldl (buildStep all fi fd) acc) = alLookup pn acc := by
  intro groups
  induction groups with
  | nil => intro acc pn _; rfl
  | cons hd tl ih =>
    intro acc pn hpn
    simp only [List.map_cons, List.mem_cons, not_or] at hpn
    rw [List.foldl_cons, ih _ pn (by simpa using hpn.2)]
    unfold buildStep
    split
    · rfl
    · exact alLookup_alInsert_ne pn hd.1 _ acc (Ne.symm hpn.1)

theorem build_lookup (all : List (List Char)) (fi : List (List Char × FProps))
    (fd : List (List Char × List Char)) :
    ∀ (groups : List (List Char × List RegisterInfo)) (acc : List (List Char × Peripheral))
      (pn : List Char) (regs : List RegisterInfo),
      (pn, regs) ∈ groups → regs ≠ [] → (groups.map Prod.fst).Nodup →
      alLookup pn (groups.foldl (buildStep all fi fd) acc)
        = some (mkPeriph all fi fd (pn, regs)) := by
  intro groups
  induction groups with
  | nil => intro acc pn regs hmem; cases hmem
  | cons hd tl ih =>
    intro acc pn regs hmem hne hnd
    simp only [List.map_cons, List.nodup_cons] at hnd
    rcases List.mem_cons.mp hmem with h1 | h1
    · subst h1
      rw [List.foldl_cons, build_lookup_preserve all fi fd tl _ _ hnd.1]
      unfold buildStep
      split
      case isTrue hemp => exact absurd hemp hne
      case isFalse => exact alLookup_alInsert_self _ _ _
    · exact ih _ pn regs h1 hne hnd.2

/-! ## Claim C4: base-address minimality and offsets -/

/-- C4.  For every peripheral group `(pn, regs)` with at least one register
(empty groups being skipped), the built peripheral's base address is the
minimum address among the grouped registers; every register stored in the
peripheral comes from a grouped register whose absolute address is the base
address plus the stored offset (so no offset underflows); and, when the
grouped register names are distinct, some stored register attains offset 0,
i.e. the base address is the minimum over the peripheral's registers. -/
theorem c4 (dn dd : List Char) (groups : List (List Char × List RegisterInfo))
    (fi : List (List Char × FProps)) (fd : List (List Char × List Char))
    (pn : List Char) (regs : List RegisterInfo)
    (hmem : (pn, regs) ∈ groups) (hne : regs ≠ [])
    (hkeys : (groups.map Prod.fst).Nodup) :
    ∃ p, alLookup pn (build_device_tree dn dd groups fi fd).peripherals = some p ∧
      p.base_address = minAddr regs ∧
      (∀ rn r, (rn, r) ∈ p.registers →
        ∃ i ∈ regs, rn = i.reg_name ∧ p.base_address + r.address_offset = i.addr) ∧
      ((regs.map RegisterInfo.reg_name).Nodup →
        ∃ rn r, (rn, r) ∈ p.registers ∧ r.address_offset = 0) := by
  refine ⟨mkPeriph (allFqns groups) fi fd (pn, regs),
    build_lookup _ _ _ groups [] pn regs hmem hne hkeys, rfl, ?_, ?_⟩
  · intro rn r hr
    obtain ⟨i, hi, heq⟩ := regsFold_mem _ _ _ _ _ _ hr
    injection heq with h1 h2
    refine ⟨i, hi, h1, ?_⟩
    rw [h2]
    exact Nat.add_sub_cancel' (minAddr_le regs i hi)
  · intro hnodup
    obtain ⟨i0, hi0, haddr⟩ := minAddr_attained regs hne
    refine ⟨i0.reg_name, mkRegister (allFqns groups) fi fd (minAddr regs) i0, ?_, ?_⟩
    · apply alLookup_mem
      exact regsFold_lookup _ _ _ _ (sortByAddr regs) [] i0
        ((mem_sortByAddr i0 regs).mpr hi0)
        (((sortByAddr_perm regs).map RegisterInfo.reg_name).nodup_iff.mpr hnodup)
    · show i0.addr - minAddr regs = 0
      rw [haddr, Nat.sub_self]

/-- C4 witness: a concrete two-register peripheral group. -/
theorem c4_witness :
    ∃ p, alLookup (("FOO").toList)
        (build_device_tree devName0 devDesc0 c4Groups [] []).peripherals = some p ∧
      p.base_address = minAddr c4Regs ∧
      (∀ rn r, (rn, r) ∈ p.registers →
        ∃ i ∈ c4Regs, rn = RegisterInfo.reg_name i ∧
          p.base_address + r.address_offset = i.addr) ∧
      ((c4Regs.map RegisterInfo.reg_name).Nodup →
        ∃ rn r, (rn, r) ∈ p.registers ∧ r.address_offset = 0) :=
  c4 devName0 devDesc0 c4Groups [] [] (("FOO").toList) c4Regs (by decide) (by decide)
    (by decide)

/-! ## Claim C5: specificity resolution -/

theorem isPrefixOf_reconstruct {l s : List Char} (h : l.isPrefixOf s = true) :
    s = l ++ s.drop l.length := by
  obtain ⟨t, ht⟩ := List.isPrefixOf_iff_prefix.mp h
  rw [← ht, List.drop_left]

/-- C5.  When both macro names `A` and `A_EXT` occur among the register
macro names, a field prefix of the form `A_EXT_X` never yields a field of
the register defined by `A` (the more specific `A_EXT` blocks it), and —
when nothing even more specific than `A_EXT` exists — it yields the field
named `X` of the register defined by `A_EXT`. -/
theorem c5 (a x : List Char) (all : List (List Char)) (fi : List (List Char × FProps))
    (fd : List (List Char × List Char)) (props : FProps) (o w : Nat)
    (hext : (a ++ extSuffix) ∈ all)
    (hmem : ((a ++ extSuffix) ++ '_' :: x, props) ∈ fi)
    (ho : props.bitOffset = some o) (hw : props.bitWidth = some w)
    (hnb : isMoreSpecific all (a ++ extSuffix) ((a ++ extSuffix) ++ '_' :: x) = false) :
    (∀ f ∈ fieldsForRegister a all fi fd, f.name ≠ 'E' :: 'X' :: 'T' :: '_' :: x) ∧
    (⟨x, (alLookup ((a ++ extSuffix) ++ '_' :: x) fd).getD x, o, w⟩ : Field) ∈
      fieldsForRegister (a ++ extSuffix) all fi fd := by
  constructor
  · intro f hf hcontra
    rw [fieldsFor_eq_filterMap] at hf
    obtain ⟨e, _, hsome⟩ := List.mem_filterMap.mp hf
    obtain ⟨hpre, hnms, _, _, hname⟩ := fieldOfEntry_some _ _ _ _ _ hsome
    have hrec : e.1 = (a ++ ['_']) ++ e.1.drop (a ++ ['_']).length :=
      isPrefixOf_reconstruct hpre
    have hlen : (a ++ ['_']).length = a.length + 1 := by simp
    have he1 : e.1 = (a ++ extSuffix) ++ '_' :: x := by
      rw [hlen] at hrec
      rw [hrec, ← hname, hcontra]
      simp [extSuffix]
    have hms : isMoreSpecific all a e.1 = true := by
      rw [isMoreSpecific, List.any_eq_true]
      refine ⟨a ++ extSuffix, hext, ?_⟩
      rw [he1]
      simp only [Bool.and_eq_true, decide_eq_true_eq]
      refine ⟨⟨by simp [extSuffix], ?_⟩, ?_⟩
      · exact List.isPrefixOf_iff_prefix.mpr (List.prefix_append a extSuffix)
      · apply List.isPrefixOf_iff_prefix.mpr
        refine ⟨x, ?_⟩
        simp
    rw [hms] at hnms
    cases hnms
  · rw [fieldsFor_eq_filterMap]
    apply List.mem_filterMap.mpr
    refine ⟨((a ++ extSuffix) ++ '_' :: x, props), hmem, ?_⟩
    unfold fieldOfEntry
    have hpre : ((a ++ extSuffix) ++ ['_']).isPrefixOf ((a ++ extSuffix) ++ '_' :: x)
        = true := by
      apply List.isPrefixOf_iff_prefix.mpr
      refine ⟨x, ?_⟩
      simp
    have hdrop : ((a ++ extSuffix) ++ '_' :: x).drop ((a ++ extSuffix).length + 1) = x := by
      have h1 : (a ++ extSuffix) ++ '_' :: x = ((a ++ extSuffix) ++ ['_']) ++ x := by simp
      have h2 : ((a ++ extSuffix) ++ ['_']).length = (a ++ extSuffix).length + 1 := by
        simp
        omega
      rw [h1, ← h2, List.drop_left]
    rw [hpre, hnb]
    simp only [Bool.not_false, Bool.and_true, if_true]
    rw [ho, hw, hdrop]

/-- C5 witness: registers `CTL` and `CTL_EXT`, field prefix `CTL_EXT_EN`. -/
theorem c5_witness :
    (∀ f ∈ fieldsForRegister ['C', 'T', 'L']
        [['C', 'T', 'L'], ['C', 'T', 'L'] ++ extSuffix]
        [((['C', 'T', 'L'] ++ extSuffix) ++ '_' :: ['E', 'N'], ⟨some 0, some 1⟩)] [],
      f.name ≠ 'E' :: 'X' :: 'T' :: '_' :: ['E', 'N']) ∧
    (⟨['E', 'N'],
      (alLookup ((['C', 'T', 'L'] ++ extSuffix) ++ '_' :: ['E', 'N']) []).getD ['E', 'N'],
      0, 1⟩ : Field) ∈
      fieldsForRegister (['C', 'T', 'L'] ++ extSuffix)
        [['C', 'T', 'L'], ['C', 'T', 'L'] ++ extSuffix]
        [((['C', 'T', 'L'] ++ extSuffix) ++ '_' :: ['E', 'N'], ⟨some 0, some 1⟩)] [] :=
  c5 ['C', 'T', 'L'] ['E', 'N'] _ _ [] ⟨some 0, some 1⟩ 0 1 (by decide) (by decide)
    (by decide) (by decide) (by decide)

/-! ## Claim C6: completeness of fields in the tree -/

theorem field_origin (dn dd : List Char) (groups : List (List Char × List RegisterInfo))
    (fi : List (List Char × FProps)) (fd : List (List Char × List Char))
    (pn : List Char) (p : Peripheral) (rn : List Char) (r : Register) (f : Field)
    (hp : (pn, p) ∈ (build_device_tree dn dd groups fi fd).peripherals)
    (hr : (rn, r) ∈ p.registers) (hf : f ∈ r.fields) :
    ∃ rd, ∃ e ∈ fi, fieldOfEntry rd (allFqns groups) fd e = some f := by
  obtain ⟨e, _, _, _, hp2⟩ := device_mem dn dd groups fi fd pn p hp
  rw [hp2] at hr
  unfold mkPeriph at hr
  obtain ⟨i, _, hreq⟩ := regsFold_mem _ _ _ _ _ _ hr
  injection hreq with h1 h2
  subst h2
  have hfields : (mkRegister (allFqns groups) fi fd (minAddr e.2) i).fields
      = fieldsForRegister i.reg_define (allFqns groups) fi fd := rfl
  rw [hfields, fieldsFor_eq_filterMap] at hf
  obtain ⟨en, hen, hsome⟩ := List.mem_filterMap.mp hf
  exact ⟨i.reg_define, en, hen, hsome⟩

theorem filterMap_filter_of_none {α β : Type} (g : α → Option β) (p : α → Bool)
    (h : ∀ e, p e = false → g e = none) (l : List α) :
    (l.filter p).filterMap g = l.filterMap g := by
  induction l with
  | nil => rfl
  | cons hd tl ih =>
    cases hp : p hd with
    | true => simp [List.filter_cons, hp, List.filterMap_cons, ih]
    | false => simp [List.filter_cons, hp, List.filterMap_cons, h hd hp, ih]

theorem fieldOfEntry_incomplete (rd : List Char) (all : List (List Char))
    (fd : List (List Char × List Char)) (e : List Char × FProps)
    (h : (e.2.bitOffset.isSome && e.2.bitWidth.isSome) = false) :
    fieldOfEntry rd all fd e = none := by
  unfold fieldOfEntry
  split
  · cases ho : e.2.bitOffset <;> cases hw : e.2.bitWidth <;> simp_all
  · rfl

theorem fieldsFor_filter_complete (rd : List Char) (all : List (List Char))
    (fi : List (List Char × FProps)) (fd : List (List Char × List Char)) :
    fieldsForRegister rd all
        (fi.filter (fun e => e.2.bitOffset.isSome && e.2.bitWidth.isSome)) fd
      = fieldsForRegister rd all fi fd := by
  rw [fieldsFor_eq_filterMap, fieldsFor_eq_filterMap]
  exact filterMap_filter_of_none _ _ (fieldOfEntry_incomplete rd all fd) fi

/-- C6.  Every field of the built device tree carries a bit offset and a
bit width that were both recorded in `fields_info` for some prefix; and
deleting the incomplete entries (those with only one of the two) from
`fields_info` leaves the built device tree unchanged — they are dropped
silently, producing no field and no diagnostic. -/
theorem c6 (dn dd : List Char) (groups : List (List Char × List RegisterInfo))
    (fi : List (List Char × FProps)) (fd : List (List Char × List Char))
    (pn : List Char) (p : Peripheral) (rn : List Char) (r : Register) (f : Field)
    (hp : (pn, p) ∈ (build_device_tree dn dd groups fi fd).peripherals)
    (hr : (rn, r) ∈ p.registers) (hf : f ∈ r.fields) :
    (∃ e ∈ fi, e.2.bitOffset = some f.bit_offset ∧ e.2.bitWidth = some f.bit_width) ∧
    build_device_tree dn dd groups
        (fi.filter (fun e => e.2.bitOffset.isSome && e.2.bitWidth.isSome)) fd
      = build_device_tree dn dd groups fi fd := by
  constructor
  · obtain ⟨rd, e, he, hsome⟩ := field_origin dn dd groups fi fd pn p rn r f hp hr hf
    obtain ⟨_, _, ho, hw, _⟩ := fieldOfEntry_some _ _ _ _ _ hsome
    exact ⟨e, he, ho, hw⟩
  · unfold build_device_tree
    have hstep : buildStep (allFqns groups)
        (fi.filter (fun e => e.2.bitOffset.isSome && e.2.bitWidth.isSome)) fd
        = buildStep (allFqns groups) fi fd := by
      funext acc e
      unfold buildStep mkPeriph regsFold mkRegister
      simp only [fieldsFor_filter_complete]
    rw [hstep]

/-- C6 witness: a register with one complete and one incomplete field
prefix; the complete one yields the field at [6:3] and filtering the
incomplete one away does not change the tree. -/
theorem c6_witness :
    (∃ e ∈ c6Fi, e.2.bitOffset = some 3 ∧ e.2.bitWidth = some 4) ∧
    build_device_tree devName0 devDesc0 c6Groups
        (c6Fi.filter (fun e => e.2.bitOffset.isSome && e.2.bitWidth.isSome)) []
      = build_device_tree devName0 devDesc0 c6Groups c6Fi [] :=
  c6 devName0 devDesc0 c6Groups c6Fi [] (("FOO").toList)
    ⟨("FOO").toList, 0, ("FOO Peripheral").toList,
      [(("BAR").toList,
        ⟨("BAR").toList, ("rdesc").toList, 0, 32,
          [⟨("X").toList, ("X").toList, 3, 4⟩]⟩)]⟩
    (("BAR").toList)
    ⟨("BAR").toList, ("rdesc").toList, 0, 32, [⟨("X").toList, ("X").toList, 3, 4⟩]⟩
    ⟨("X").toList, ("X").toList, 3, 4⟩
    (by decide) (by decide) (by decide)

/-! ## Lemmas about one parsing step -/

theorem recordFqn_preserves (st : PState) (p rc : List Char) :
    (recordFqn st p rc).registers_info = st.registers_info ∧
    (recordFqn st p rc).fields_info = st.fields_info ∧
    (recordFqn st p rc).field_descriptions = st.field_descriptions ∧
    (recordFqn st p rc).last_field_info = st.last_field_info := by
  unfold recordFqn recordFqnAux
  split
  · split <;> exact ⟨rfl, rfl, rfl, rfl⟩
  · exact ⟨rfl, rfl, rfl, rfl⟩

theorem commentStep_core (st : PState) (line : List Char) :
    (commentStep st line).registers_info = st.registers_info ∧
    (commentStep st line).fields_info = st.fields_info ∧
    (commentStep st line).field_descriptions = st.field_descriptions := by
  unfold commentStep
  cases hfc : fieldCommentParse line with
  | some t =>
    obtain ⟨p, rc, ds⟩ := t
    obtain ⟨h1, h2, h3, _⟩ := recordFqn_preserves { st with
      last_field_info := some ⟨p ++ '_' :: replSpace rc, pyStrip ds⟩ } p rc
    exact ⟨h1, h2, h3⟩
  | none =>
    cases hrc : registerCommentParse line with
    | some t =>
      obtain ⟨p, rc⟩ := t
      obtain ⟨h1, h2, h3, _⟩ := recordFqn_preserves st p rc
      exact ⟨h1, h2, h3⟩
    | none => exact ⟨rfl, rfl, rfl⟩

theorem commentStep_pending (st : PState) (line : List Char)
    (h : fieldCommentParse line = none) :
    (commentStep st line).last_field_info = st.last_field_info := by
  unfold commentStep
  rw [h]
  cases hrc : registerCommentParse line with
  | some t =>
    obtain ⟨p, rc⟩ := t
    exact (recordFqn_preserves st p rc).2.2.2
  | none => rfl

theorem resetCtx_core (st : PState) (line : List Char) :
    (resetCtx st line).registers_info = st.registers_info ∧
    (resetCtx st line).fields_info = st.fields_info ∧
    (resetCtx st line).field_descriptions = st.field_descriptions := by
  unfold resetCtx
  split <;> exact ⟨rfl, rfl, rfl⟩

theorem resetCtx_of_define (st : PState) (line : List Char)
    (h : defineKw.isPrefixOf line = true) : resetCtx st line = st := by
  unfold resetCtx
  rw [h]
  simp

theorem defineParse_isPrefixOf (l : List Char)
    (t : List Char × List Char × Option (List Char)) (h : defineParse l = some t) :
    defineKw.isPrefixOf l = true := by
  by_cases hp : defineKw.isPrefixOf l = true
  · exact hp
  · exfalso
    have hp2 : defineKw.isPrefixOf l = false := by
      cases hb : defineKw.isPrefixOf l
      · rfl
      · exact absurd hb hp
    have hnone : reMatch defineRE l = none := by
      unfold reMatch defineRE seqRE
      simp only [List.foldr, matchR, hp2]
      rfl
    rw [defineParse, hnone] at h
    cases h

/-- The register-definition branch of one parsing step: when the stripped
line is a register define for name `n` with stored value `val`, the step
succeeds and the only change to `registers_info` is the dict assignment
`registers_info[n] = val`. -/
theorem lineStep_register (st : PState) (raw : List Char) (n : List Char) (val : RegAddrDesc)
    (h : registerRecordValue (pyStrip raw) = some (n, val)) :
    ∃ st2, lineStep st raw = some st2 ∧
      st2.registers_info = alInsert n val st.registers_info := by
  cases hdp : defineParse (pyStrip raw) with
  | none =>
    exfalso
    unfold registerRecordValue at h
    rw [hdp] at h
    cases h
  | some t =>
    obtain ⟨n0, v0, c0⟩ := t
    have h2 : (if (!isFieldProp n0 c0 && hexKw.isPrefixOf v0) = true
        then some (n0, (⟨hexVal (v0.drop 2), regDescOf n0 c0⟩ : RegAddrDesc)) else none)
        = some (n, val) := by
      rw [← h]
      unfold registerRecordValue
      rw [hdp]
    by_cases hcond : (!isFieldProp n0 c0 && hexKw.isPrefixOf v0) = true
    · rw [if_pos hcond] at h2
      injection h2 with h2
      injection h2 with hn hval
      have hfp : isFieldProp n0 c0 = false := by
        have h1 := (Bool.and_eq_true_iff.mp hcond).1
        exact Bool.not_eq_true' .. |>.mp h1
      have hhex : hexKw.isPrefixOf v0 = true := (Bool.and_eq_true_iff.mp hcond).2
      have hreset : resetCtx st (pyStrip raw) = st :=
        resetCtx_of_define st _ (defineParse_isPrefixOf _ _ hdp)
      have hds : defineStep (resetCtx st (pyStrip raw)) (pyStrip raw) = some { st with registers_info := alInsert n0 ⟨hexVal (v0.drop 2), regDescOf n0 c0⟩ st.registers_info } := by
        rw [hreset]
        unfold defineStep
        rw [hdp]
        simp [hfp, hhex]
      refine ⟨commentStep { st with registers_info := alInsert n0 ⟨hexVal (v0.drop 2), regDescOf n0 c0⟩ st.registers_info } (pyStrip raw), ?_, ?_⟩
      · unfold lineStep
        rw [hds]
      · rw [(commentStep_core _ _).1]
        show alInsert n0 ⟨hexVal (v0.drop 2), regDescOf n0 c0⟩ st.registers_info
          = alInsert n val st.registers_info
        rw [hval, hn]
    · rw [if_neg hcond] at h2
      cases h2

/-! ## Claim C7: the define classifier -/

/-- C7.  A define ending in `_BITS`, `_SHIFT` or `_ALIGN` is always a field
property; one ending in `_MASK` (and none of the former) is a field
property exactly when there is no comment (absent or empty) or the comment
does not contain the word `Register`; and a hex-valued define that is not a
field property is recorded in `registers_info` under its macro name with
the comment stripped of `Register` and trimmed as description, the macro
name itself standing in when the comment is absent or empty. -/
theorem c7 :
    (∀ (n : List Char) (c : Option (List Char)),
      (endsWith n bitsSuf || endsWith n shiftSuf || endsWith n alignSuf) = true →
      isFieldProp n c = true) ∧
    (∀ (n : List Char) (c : Option (List Char)), endsWith n maskSuf = true →
      (endsWith n bitsSuf || endsWith n shiftSuf || endsWith n alignSuf) = false →
      (isFieldProp n c = true ↔
        (c = none ∨ ∃ cc, c = some cc ∧ containsSub registerW cc = false))) ∧
    (∀ (st : PState) (raw n v : List Char) (c : Option (List Char)),
      defineParse (pyStrip raw) = some (n, v, c) →
      isFieldProp n c = false → hexKw.isPrefixOf v = true →
      ∃ st2, lineStep st raw = some st2 ∧
        st2.registers_info =
          alInsert n ⟨hexVal (v.drop 2), regDescOf n c⟩ st.registers_info) := by
  refine ⟨?_, ?_, ?_⟩
  · intro n c h
    unfold isFieldProp
    rw [if_pos h]
  · intro n c hmask hother
    unfold isFieldProp
    rw [if_neg (by simp [hother]), if_pos hmask]
    cases c with
    | none => simp
    | some cc =>
      show (decide (cc = []) || !containsSub registerW cc) = true ↔ _
      constructor
      · intro h
        refine Or.inr ⟨cc, rfl, ?_⟩
        rcases Bool.or_eq_true_iff.mp h with h1 | h1
        · have hcc : cc = [] := by simpa using h1
          subst hcc
          decide
        · exact Bool.not_eq_true' .. |>.mp h1
      · rintro (hnone | ⟨cc2, heq, hc⟩)
        · exact absurd hnone (Option.some_ne_none cc)
        · injection heq with heq
          subst heq
          rw [hc]
          simp
  · intro st raw n v c hdp hfp hhex
    apply lineStep_register
    simp [registerRecordValue, hdp, hfp, hhex]

/-- C7 witness: the three parts at `A_BITS`, `A_MASK` and a plain hex
register define. -/
theorem c7_witness :
    isFieldProp (("A_BITS").toList) none = true ∧
    (isFieldProp (("A_MASK").toList) none = true ↔
      ((none : Option (List Char)) = none ∨
        ∃ cc, (none : Option (List Char)) = some cc ∧
          containsSub registerW cc = false)) ∧
    ∃ st2, lineStep initState (("#define R 0x10").toList) = some st2 ∧
      st2.registers_info =
        alInsert (("R").toList) ⟨hexVal ((("0x10").toList).drop 2),
          regDescOf (("R").toList) none⟩ initState.registers_info :=
  ⟨c7.1 (("A_BITS").toList) none (by decide),
   c7.2.1 (("A_MASK").toList) none (by decide) (by decide),
   c7.2.2 initState (("#define R 0x10").toList) (("R").toList) (("0x10").toList) none
     (by decide) (by decide) (by decide)⟩

/-! ## Claim C9: duplicate register defines -/

theorem parseFrom_append (b : List (List Char)) :
    ∀ (a : List (List Char)) (st : PState),
    parseFrom st (a ++ b) =
      match parseFrom st a with
      | none => none
      | some s => parseFrom s b := by
  intro a
  induction a with
  | nil => intro st; rfl
  | cons hd tl ih =>
    intro st
    cases h : lineStep st hd with
    | none => simp [parseFrom, h]
    | some st2 => simp [parseFrom, h, ih]

/-- C9.  When two lines are register defines for the same macro name, the
first records its own value (an overwrite of whatever was there), and after
processing the first line, any further lines ending with the second,
whenever the whole run succeeds, the table holds the second line's address
and description: the last occurrence wins silently, with no merging. -/
theorem c9 (st : PState) (l1 l2 : List Char) (mid : List (List Char)) (n : List Char)
    (v1 v2 : RegAddrDesc)
    (h1 : registerRecordValue (pyStrip l1) = some (n, v1))
    (h2 : registerRecordValue (pyStrip l2) = some (n, v2)) :
    (∃ s1, lineStep st l1 = some s1 ∧ alLookup n s1.registers_info = some v1) ∧
    (∀ st2, parseFrom st (l1 :: (mid ++ [l2])) = some st2 →
      alLookup n st2.registers_info = some v2) := by
  constructor
  · obtain ⟨s1, hs1, hreg⟩ := lineStep_register st l1 n v1 h1
    refine ⟨s1, hs1, ?_⟩
    rw [hreg]
    exact alLookup_alInsert_self n v1 st.registers_info
  · intro st2 hrun
    have hrun2 : parseFrom st ((l1 :: mid) ++ [l2]) = some st2 := by
      simpa using hrun
    rw [parseFrom_append [l2] (l1 :: mid) st] at hrun2
    cases hpre : parseFrom st (l1 :: mid) with
    | none => simp [hpre] at hrun2
    | some sp =>
      simp only [hpre] at hrun2
      obtain ⟨s2, hs2, hreg⟩ := lineStep_register sp l2 n v2 h2
      have : parseFrom sp [l2] = some s2 := by
        simp [parseFrom, hs2]
      rw [this] at hrun2
      injection hrun2 with hrun2
      subst hrun2
      rw [hreg]
      exact alLookup_alInsert_self n v2 sp.registers_info

/-- C9 witness: `#define FOO 0x10` then `#define FOO 0x20`, with an
intervening `#define X_SHIFT 00` (which the real program accepts as value
0, completing the run); the final table holds `0x20`. -/
theorem c9_witness :
    (∃ s1, lineStep initState (("#define FOO 0x10").toList) = some s1 ∧
      alLookup (("FOO").toList) s1.registers_info =
        some ⟨16, ("FOO").toList⟩) ∧
    (∀ st2, parseFrom initState
        ((("#define FOO 0x10").toList) ::
          ([("#define X_SHIFT 00").toList] ++ [("#define FOO 0x20").toList])) =
        some st2 →
      alLookup (("FOO").toList) st2.registers_info = some ⟨32, ("FOO").toList⟩) :=
  c9 initState (("#define FOO 0x10").toList) (("#define FOO 0x20").toList)
    [("#define X_SHIFT 00").toList] (("FOO").toList)
    ⟨16, ("FOO").toList⟩ ⟨32, ("FOO").toList⟩ (by decide) (by decide)

/-! ## Lemmas about the grouping loop -/

theorem group_warn_mono (fqnP fqnR : List (List Char × List Char)) :
    ∀ (l : List (List Char × RegAddrDesc))
      (acc : List (List Char × List RegisterInfo) × List (List Char)) (w : List Char),
      w ∈ acc.2 → w ∈ (l.foldl (groupStep fqnP fqnR) acc).2 := by
  intro l
  induction l with
  | nil => intro acc w hw; exact hw
  | cons hd tl ih =>
    intro acc w hw
    apply ih
    unfold groupStep
    split
    · exact hw
    · exact List.mem_append_left _ hw

theorem alAppend_infos (k : List Char) (v : RegisterInfo) :
    ∀ (l : List (List Char × List RegisterInfo)) (x : List Char × List RegisterInfo),
      x ∈ alAppend k v l → ∀ i ∈ x.2, (∃ y ∈ l, i ∈ y.2) ∨ i = v := by
  intro l
  induction l with
  | nil =>
    intro x hx i hi
    simp only [alAppend, List.mem_singleton] at hx
    subst hx
    simp only [List.mem_singleton] at hi
    exact Or.inr hi
  | cons hd tl ih =>
    intro x hx i hi
    obtain ⟨k1, vs⟩ := hd
    by_cases h1 : k1 = k
    · simp only [alAppend, h1, if_true] at hx
      rcases List.mem_cons.mp hx with h2 | h2
      · subst h2
        simp only at hi
        rcases List.mem_append.mp hi with h3 | h3
        · exact Or.inl ⟨(k1, vs), List.mem_cons_self .., h3⟩
        · exact Or.inr (by simpa using h3)
      · exact Or.inl ⟨x, List.mem_cons_of_mem _ h2, hi⟩
    · simp only [alAppend, h1, if_false] at hx
      rcases List.mem_cons.mp hx with h2 | h2
      · rw [h2] at hi
        exact Or.inl ⟨(k1, vs), List.mem_cons_self .., hi⟩
      · rcases ih x h2 i hi with ⟨y, hy, hiy⟩ | h3
        · exact Or.inl ⟨y, List.mem_cons_of_mem _ hy, hiy⟩
        · exact Or.inr h3

theorem alAppend_mem_self (k : List Char) (v : RegisterInfo) :
    ∀ l : List (List Char × List RegisterInfo), ∃ e ∈ alAppend k v l, e.1 = k ∧ v ∈ e.2 := by
  intro l
  induction l with
  | nil => exact ⟨(k, [v]), List.mem_singleton.mpr rfl, rfl, List.mem_singleton.mpr rfl⟩
  | cons hd tl ih =>
    obtain ⟨k1, vs⟩ := hd
    by_cases h1 : k1 = k
    · refine ⟨(k1, vs ++ [v]), ?_, h1, List.mem_append_right _ (List.mem_singleton.mpr rfl)⟩
      simp [alAppend, h1]
    · obtain ⟨e, he, hek, hev⟩ := ih
      refine ⟨e, ?_, hek, hev⟩
      simp only [alAppend, h1, if_false]
      exact List.mem_cons_of_mem _ he

theorem alAppend_mem_mono (k2 : List Char) (v2 : RegisterInfo) :
    ∀ (l : List (List Char × List RegisterInfo)) (k : List Char) (v : RegisterInfo),
      (∃ e ∈ l, e.1 = k ∧ v ∈ e.2) → ∃ e ∈ alAppend k2 v2 l, e.1 = k ∧ v ∈ e.2 := by
  intro l
  induction l with
  | nil => intro k v h; obtain ⟨e, he, _⟩ := h; cases he
  | cons hd tl ih =>
    intro k v h
    obtain ⟨k1, vs⟩ := hd
    obtain ⟨e, he, hek, hev⟩ := h
    by_cases h1 : k1 = k2
    · simp only [alAppend]
      rw [if_pos h1]
      rcases List.mem_cons.mp he with h2 | h2
      · rw [h2] at hek hev
        exact ⟨(k1, vs ++ [v2]), List.mem_cons_self .., hek,
          List.mem_append_left _ hev⟩
      · exact ⟨e, List.mem_cons_of_mem _ h2, hek, hev⟩
    · simp only [alAppend]
      rw [if_neg h1]
      rcases List.mem_cons.mp he with h2 | h2
      · rw [h2] at hek hev
        exact ⟨(k1, vs), List.mem_cons_self .., hek, hev⟩
      · obtain ⟨e2, he2, hek2, hev2⟩ := ih k v ⟨e, h2, hek, hev⟩
        exact ⟨e2, List.mem_cons_of_mem _ he2, hek2, hev2⟩

theorem group_no_define (fqnP fqnR : List (List Char × List Char)) (d : List Char)
    (hattr : attributable fqnP fqnR d = false) :
    ∀ (l : List (List Char × RegAddrDesc))
      (acc : List (List Char × List RegisterInfo) × List (List Char)),
      (∀ e ∈ acc.1, ∀ i ∈ e.2, RegisterInfo.reg_define i ≠ d) →
      ∀ e ∈ (l.foldl (groupStep fqnP fqnR) acc).1, ∀ i ∈ e.2,
        RegisterInfo.reg_define i ≠ d := by
  intro l
  induction l with
  | nil => intro acc hacc; exact hacc
  | cons hd tl ih =>
    intro acc hacc
    apply ih
    unfold groupStep
    split
    case isTrue hattr2 =>
      intro e he i hi
      rcases alAppend_infos _ _ acc.1 e he i hi with ⟨y, hy, hiy⟩ | h3
      · exact hacc y hy i hiy
      · subst h3
        show hd.1 ≠ d
        intro hcontra
        rw [hcontra] at hattr2
        rw [hattr2] at hattr
        cases hattr
    case isFalse => exact hacc

theorem group_warn_of_unattr (fqnP fqnR : List (List Char × List Char)) (d : List Char)
    (hattr : attributable fqnP fqnR d = false) :
    ∀ (l : List (List Char × RegAddrDesc)) (ad : RegAddrDesc)
      (acc : List (List Char × List RegisterInfo) × List (List Char)),
      (d, ad) ∈ l → warnMsg d ∈ (l.foldl (groupStep fqnP fqnR) acc).2 := by
  intro l
  induction l with
  | nil => intro ad acc h; cases h
  | cons hd tl ih =>
    intro ad acc h
    rcases List.mem_cons.mp h with h1 | h1
    · subst h1
      rw [List.foldl_cons]
      apply group_warn_mono
      simp [groupStep, hattr]
    · exact ih ad _ h1

theorem group_mono_mem (fqnP fqnR : List (List Char × List Char)) :
    ∀ (l : List (List Char × RegAddrDesc))
      (acc : List (List Char × List RegisterInfo) × List (List Char))
      (k : List Char) (v : RegisterInfo),
      (∃ e ∈ acc.1, e.1 = k ∧ v ∈ e.2) →
      ∃ e ∈ (l.foldl (groupStep fqnP fqnR) acc).1, e.1 = k ∧ v ∈ e.2 := by
  intro l
  induction l with
  | nil => intro acc k v h; exact h
  | cons hd tl ih =>
    intro acc k v h
    apply ih
    unfold groupStep
    split
    · exact alAppend_mem_mono _ _ acc.1 k v h
    · exact h

theorem group_mem_of_attr (fqnP fqnR : List (List Char × List Char)) (d : List Char)
    (ad : RegAddrDesc) (hattr : attributable fqnP fqnR d = true) :
    ∀ (l : List (List Char × RegAddrDesc))
      (acc : List (List Char × List RegisterInfo) × List (List Char)),
      (d, ad) ∈ l →
      ∃ e ∈ (l.foldl (groupStep fqnP fqnR) acc).1,
        e.1 = (resolvePeriph fqnP fqnR d).1.getD [] ∧
        mkRegInfo fqnP fqnR (d, ad) ∈ e.2 := by
  intro l
  induction l with
  | nil => intro acc h; cases h
  | cons hd tl ih =>
    intro acc h
    rcases List.mem_cons.mp h with h1 | h1
    · subst h1
      rw [List.foldl_cons]
      apply group_mono_mem
      have hstep : groupStep fqnP fqnR acc (d, ad)
          = (alAppend ((resolvePeriph fqnP fqnR d).1.getD [])
              (mkRegInfo fqnP fqnR (d, ad)) acc.1, acc.2) := by
        simp [groupStep, hattr]
      rw [hstep]
      exact alAppend_mem_self _ _ acc.1
    · exact ih _ h1

/-! ## Claim C8: unattributable registers -/

/-- C8.  For every register definition in the table: when it cannot be
attributed to a peripheral, the warning naming it is emitted, and no
register with its macro name appears anywhere in the output grouping; when
it can be attributed, its `RegisterInfo` is present in the group of its
resolved peripheral — the rest of the run is unaffected either way (the
grouping function is total and processes every entry). -/
theorem c8 (ri : List (List Char × RegAddrDesc)) (fqnP fqnR : List (List Char × List Char))
    (d : List Char) (ad : RegAddrDesc) (hmem : (d, ad) ∈ ri) :
    (attributable fqnP fqnR d = false →
      warnMsg d ∈ (group_registers_by_peripheral ri fqnP fqnR).2 ∧
      ∀ e ∈ (group_registers_by_peripheral ri fqnP fqnR).1, ∀ i ∈ e.2,
        RegisterInfo.reg_define i ≠ d) ∧
    (attributable fqnP fqnR d = true →
      ∃ e ∈ (group_registers_by_peripheral ri fqnP fqnR).1,
        e.1 = (resolvePeriph fqnP fqnR d).1.getD [] ∧
        mkRegInfo fqnP fqnR (d, ad) ∈ e.2) := by
  constructor
  · intro hattr
    constructor
    · exact group_warn_of_unattr fqnP fqnR d hattr ri ad ([], []) hmem
    · exact group_no_define fqnP fqnR d hattr ri ([], []) (by intro e he; cases he)
  · intro hattr
    exact group_mem_of_attr fqnP fqnR d ad hattr ri ([], []) hmem

/-- C8 witness: the macro `R1` with no FQN association is dropped with a
warning, while `FOO_BAR` is directly attributable. -/
theorem c8_witness :
    (attributable fqnPC2 fqnRC2 (("R1").toList) = false →
      warnMsg (("R1").toList) ∈ (group_registers_by_peripheral
        [((("R1").toList), ⟨1, ("x").toList⟩), ((("FOO_BAR").toList), ⟨2, ("y").toList⟩)]
        fqnPC2 fqnRC2).2 ∧
      ∀ e ∈ (group_registers_by_peripheral
        [((("R1").toList), ⟨1, ("x").toList⟩), ((("FOO_BAR").toList), ⟨2, ("y").toList⟩)]
        fqnPC2 fqnRC2).1, ∀ i ∈ e.2, RegisterInfo.reg_define i ≠ (("R1").toList)) ∧
    (attributable fqnPC2 fqnRC2 (("R1").toList) = true →
      ∃ e ∈ (group_registers_by_peripheral
        [((("R1").toList), ⟨1, ("x").toList⟩), ((("FOO_BAR").toList), ⟨2, ("y").toList⟩)]
        fqnPC2 fqnRC2).1,
        e.1 = (resolvePeriph fqnPC2 fqnRC2 (("R1").toList)).1.getD [] ∧
        mkRegInfo fqnPC2 fqnRC2 ((("R1").toList), ⟨1, ("x").toList⟩) ∈ e.2) :=
  c8 [((("R1").toList), ⟨1, ("x").toList⟩), ((("FOO_BAR").toList), ⟨2, ("y").toList⟩)]
    fqnPC2 fqnRC2 (("R1").toList) ⟨1, ("x").toList⟩ (by decide)

/-! ## Claim C10: first recorded field description wins -/

/-- C10.  When a field-property define for prefix `px0` is processed while
a matching pending field-description context exists, and a description for
`px0` is already recorded, the recorded description is left in place (the
first one wins) and the pending context is still cleared. -/
theorem c10 (st : PState) (raw : List Char) (kb dN d0 : List Char) (n v px0 pr : List Char)
    (c : Option (List Char)) (value : Nat)
    (hpend : st.last_field_info = some ⟨kb, dN⟩)
    (hd0 : alLookup px0 st.field_descriptions = some d0)
    (hdef : defineParse (pyStrip raw) = some (n, v, c))
    (hfp : isFieldProp n c = true)
    (hsplit : lastSplit n = some (px0, pr))
    (hval : pyIntBase0 v = some value)
    (hkb : kb.isPrefixOf px0 = true)
    (hnofc : fieldCommentParse (pyStrip raw) = none) :
    ∃ st2, lineStep st raw = some st2 ∧
      alLookup px0 st2.field_descriptions = some d0 ∧
      st2.last_field_info = none := by
  have hreset : resetCtx st (pyStrip raw) = st :=
    resetCtx_of_define st _ (defineParse_isPrefixOf _ _ hdef)
  have hfps : fieldPropStep st n v = some { st with fields_info := fieldsInfoUpd st.fields_info px0 pr value, field_descriptions := st.field_descriptions, last_field_info := none } := by
    unfold fieldPropStep
    simp only [hsplit, hval, hpend]
    simp [hkb, hd0]
  have hds : defineStep (resetCtx st (pyStrip raw)) (pyStrip raw) = some { st with fields_info := fieldsInfoUpd st.fields_info px0 pr value, field_descriptions := st.field_descriptions, last_field_info := none } := by
    rw [hreset]
    unfold defineStep
    simp only [hdef, hfp, if_true]
    exact hfps
  refine ⟨commentStep { st with fields_info := fieldsInfoUpd st.fields_info px0 pr value, field_descriptions := st.field_descriptions, last_field_info := none } (pyStrip raw), ?_, ?_, ?_⟩
  · unfold lineStep
    rw [hds]
  · rw [(commentStep_core _ _).2.2]
    exact hd0
  · rw [commentStep_pending _ _ hnofc]

/-- C10 witness: a state with a recorded description `first` for prefix
`A_B` and a pending description `second`; processing `#define A_B_SHIFT 00`
(value 0, an all-zero literal the real program accepts) keeps `first` and
clears the pending context. -/
theorem c10_witness :
    ∃ st2, lineStep
        ⟨[], [], [(("A_B").toList, ("first").toList)], [], [],
          some ⟨("A").toList, ("second").toList⟩⟩
        (("#define A_B_SHIFT 00").toList) = some st2 ∧
      alLookup (("A_B").toList) st2.field_descriptions = some (("first").toList) ∧
      st2.last_field_info = none :=
  c10 ⟨[], [], [(("A_B").toList, ("first").toList)], [], [],
      some ⟨("A").toList, ("second").toList⟩⟩
    (("#define A_B_SHIFT 00").toList) (("A").toList) (("second").toList) (("first").toList)
    (("A_B_SHIFT").toList) (("00").toList) (("A_B").toList) (("SHIFT").toList) none 0
    (by decide) (by decide) (by decide) (by decide) (by decide) (by decide) (by decide)
    (by decide)

end RegToSvd
